import Mathlib

/-!
Verification development for the dockcron scheduling and execution engine.

The definitions below are a shallow embedding of `src/job.rs` (and the small
amount of supporting code in `src/main.rs`): the schedule model
(`JobSchedule`, its `FromStr` and `Display` impls), label-driven job
discovery (`discover`), a single execution attempt (`run_once` /
`run_once_async`), and the per-job timing loop (`run_loop`, interval
branch).

External crates (humantime, cron, shlex, bollard, tokio) are not part of
this repository; their behaviour enters the model either as explicit
oracle parameters (`ParseOracles` for humantime/cron parsing and
formatting, `ExecEnv` for the Docker API results, the tokenizer result for
shlex) or, for the tokio interval timer, as a faithful transcription of
tokio's documented `interval` / `MissedTickBehavior::Burst` semantics
(first tick completes immediately; each `tick()` fires at
`max(now, deadline)` and advances the deadline by exactly one period, so
missed ticks are delivered as fast as possible until the timer catches
up).
-/

namespace Dockcron

/-! ### Character / string utilities

`str::trim` (Rust) removes leading and trailing whitespace; we model
whitespace with `Char.isWhitespace` (space, tab, CR, LF), which agrees
with Rust on all ASCII input. -/

def isWs (c : Char) : Bool := c.isWhitespace

/-- Drop trailing characters satisfying `isWs` (via reverse). -/
def dropTrailWs (l : List Char) : List Char :=
  (l.reverse.dropWhile isWs).reverse

/-- Model of Rust `str::trim` on the character list. -/
def trimChars (l : List Char) : List Char :=
  dropTrailWs (l.dropWhile isWs)

/-- Model of Rust `str::trim`. -/
def trimStr (s : String) : String :=
  String.mk (trimChars s.toList)

/-- `isPfxOf p s` models `s.strip` of prefix `p` on character lists:
`some rest` when `s = p ++ rest`, else `none`. -/
def isPfxOf : List Char → List Char → Option (List Char)
  | [], ys => some ys
  | _ :: _, [] => none
  | x :: xs, y :: ys => if x = y then isPfxOf xs ys else none

/-- Model of Rust `str::strip` of a prefix (`strip` + `_prefix`):
`some rest` when `s` starts with `p`, `none` otherwise. -/
def dropPfx (p s : String) : Option String :=
  (isPfxOf p.toList s.toList).map String.mk

/-! ### Schedule model (`JobSchedule`, src/job.rs lines 30-83)

The duration type of `humantime` and the compiled schedule type of the
`cron` crate are opaque to this repository, so the model is parameterized
over them (`D`, `C`) together with the crate operations the source calls:
`humantime::parse_duration`, `humantime::format_duration`,
`cron::Schedule::from_str`, the `Display` of `cron::Schedule`, and
`Duration::from_secs`. -/

structure ParseOracles (D C : Type) where
  parseDuration : String → Option D
  formatDuration : D → String
  parseCron : String → Option C
  formatCron : C → String
  secs : Nat → D

inductive JobSchedule (D C : Type) where
  | every (d : D)
  | cron (c : C)
deriving DecidableEq

/-- `JOB_SCHEDULE_EVERY_DEFINITION_` + `PREFIX` constant (src/job.rs:37). -/
def everyPfxStr : String := "@every "

/-- `JOB_SCHEDULE_CRON_DEFINITION_` + `PREFIX` constant (src/job.rs:38). -/
def cronPfxStr : String := "@cron "

/-- Error outcomes of `JobSchedule::from_str`. The source returns
`anyhow::Error`; the three distinguishable cases are: the error of
`humantime::parse_duration` propagated by `?`, the cron parse error
wrapped with context "could not parse cron schedule", and the
`anyhow!("unsupported schedule: ...")` error carrying the trimmed input. -/
inductive ScheduleParseError where
  | durationError
  | cronError
  | unsupported (s : String)
deriving DecidableEq

/-- Is this the `unsupported schedule` error (as opposed to a payload
parse error)? -/
def isUnsupportedErr : ScheduleParseError → Bool
  | .unsupported _ => true
  | _ => false

/-- Model of `JobSchedule::from_str` (src/job.rs:55-83).
Note the arm `"@every 24h"` of the source's macro `match` is kept even
though it is unreachable (any trimmed string starting with `"@every "` is
consumed by the first branch). -/
def jobScheduleFromStr (O : ParseOracles D C) (s0 : String) :
    Except ScheduleParseError (JobSchedule D C) :=
  let s := trimStr s0
  match dropPfx everyPfxStr s with
  | some rest =>
    match O.parseDuration rest with
    | some d => Except.ok (JobSchedule.every d)
    | none => Except.error ScheduleParseError.durationError
  | none =>
    match dropPfx cronPfxStr s with
    | some rest =>
      match O.parseCron rest with
      | some c => Except.ok (JobSchedule.cron c)
      | none => Except.error ScheduleParseError.cronError
    | none =>
      if s = "@hourly" then Except.ok (JobSchedule.every (O.secs 3600))
      else if s = "@daily" ∨ s = "@every 24h" then
        Except.ok (JobSchedule.every (O.secs (24 * 3600)))
      else if s = "@weekly" then Except.ok (JobSchedule.every (O.secs (7 * 24 * 3600)))
      else if s = "@monthly" then Except.ok (JobSchedule.every (O.secs (30 * 24 * 3600)))
      else
        match O.parseCron s with
        | some c => Except.ok (JobSchedule.cron c)
        | none => Except.error (ScheduleParseError.unsupported s)

/-- Model of `impl Display for JobSchedule` (src/job.rs:40-53). -/
def jobScheduleRender (O : ParseOracles D C) : JobSchedule D C → String
  | .every d => everyPfxStr ++ O.formatDuration d
  | .cron c => cronPfxStr ++ O.formatCron c

/-! ### Job discovery (`discover`, src/job.rs:85-209)

Containers arrive from `docker.list_containers` as `ContainerSummary`
values; labels are a `HashMap<String, String>`, modelled as an
association list with distinct keys (lookups take the first match).  The
successful listing itself is taken as input: the transport to Docker is
an external collaborator of the engine. -/

def emptyStr : String := ""

/-- `Label` (src/main.rs:17-21), the container label selector. -/
structure Label where
  key : String
  value : String

/-- The fields of bollard's `ContainerSummary` that `discover` reads. -/
structure ContainerSummary where
  id : Option String
  names : Option (List String)
  labels : Option (List (String × String))

/-- `OverlapPolicy` (src/main.rs:11-15). -/
inductive OverlapPolicy where
  | allow
  | skip
deriving DecidableEq

/-- The `PartialJobConfig` accumulator of `discover` (src/job.rs:147-152). -/
structure PartialJobConfig where
  schedule : Option String
  command : Option String
  no_overlap : Option String
deriving DecidableEq

def emptyCfg : PartialJobConfig := ⟨none, none, none⟩

/-- The `Job` record (src/job.rs:19-28), minus the 1-permit semaphore
gate, which is part of the scheduler-loop model rather than of the data
carried by discovery. -/
structure Job (D C : Type) where
  container_id : String
  container_name : String
  name : String
  schedule : JobSchedule D C
  command : String
  overlap : OverlapPolicy
deriving DecidableEq

/-- Discovery errors. After a successful container listing, the only way
`discover` fails is the `?` on `JobSchedule::from_str` with context
`parse schedule '<schedule string>'` (src/job.rs:188-189); the error
names the offending schedule string. -/
inductive DiscoverError where
  | parseSchedule (schedStr : String) (e : ScheduleParseError)
deriving DecidableEq

/-- The three recognized label-key suffixes of the grouping regex
`^<pfx>.job-exec.([^.]+).(schedule|command|no-overlap)$` (src/job.rs:140-145). -/
def jobKeyKinds : List String := ["schedule", "command", "no-overlap"]

/-- Model of one regex capture: `matchJobKey p k = some (name, kind)` iff
`k = p ++ ".job-exec." ++ name ++ "." ++ kind` with `name` a nonempty
run of non-dot characters and `kind` one of the three literals.  The
regex is anchored on both sides and `[^.]+` cannot cross a dot, so the
decomposition at the first dot after the fixed part is the unique one. -/
def jobExecSepStr : String := ".job-exec."

def matchJobKey (pfx k : String) : Option (String × String) :=
  match dropPfx (pfx ++ jobExecSepStr) k with
  | none => none
  | some tail =>
    let cs := tail.toList
    let nameCs := cs.takeWhile (fun c => c ≠ '.')
    match cs.dropWhile (fun c => c ≠ '.') with
    | [] => none
    | _ :: kindCs =>
      if nameCs ≠ [] ∧ String.mk kindCs ∈ jobKeyKinds then
        some (String.mk nameCs, String.mk kindCs)
      else none

/-- One `match kind` assignment into the accumulator (src/job.rs:161-166). -/
def setField (acc : PartialJobConfig) (kind v : String) : PartialJobConfig :=
  if kind = "schedule" then ⟨some v, acc.command, acc.no_overlap⟩
  else if kind = "command" then ⟨acc.schedule, some v, acc.no_overlap⟩
  else if kind = "no-overlap" then ⟨acc.schedule, acc.command, some v⟩
  else acc

/-- `by_job.entry(job).or_default()` followed by the field assignment:
update the entry in place if present, else append a fresh one. -/
def groupUpd (gs : List (String × PartialJobConfig)) (jn kind v : String) :
    List (String × PartialJobConfig) :=
  match gs with
  | [] => [(jn, setField emptyCfg kind v)]
  | (n, acc) :: rest =>
    if n = jn then (n, setField acc kind v) :: rest
    else (n, acc) :: groupUpd rest jn kind v

/-- The label-grouping loop (src/job.rs:154-168): fold the label map,
keeping only keys matching the job-key regex for the selected prefix. -/
def groupJobLabels (pfx : String) (labels : List (String × String)) :
    List (String × PartialJobConfig) :=
  labels.foldl
    (fun gs kv =>
      match matchJobKey pfx kv.1 with
      | some nk => groupUpd gs nk.1 nk.2 kv.2
      | none => gs)
    []

/-- `labels.get(k)` on the label map. -/
def lookupLbl (labels : List (String × String)) (k : String) : Option String :=
  (labels.find? (fun kv => kv.1 == k)).map (fun kv => kv.2)

/-- Does label `<pfx>.enabled` have the literal value `true`
(src/job.rs:118-123)? -/
def enabledOn (labels : List (String × String)) (pfx : String) : Bool :=
  match lookupLbl labels (pfx ++ ".enabled") with
  | some v => v == "true"
  | none => false

/-- The prefix scan (src/job.rs:115-127): first configured prefix whose
`.enabled` label is `"true"`. -/
def findEnabledPfx (pfxs : List String) (labels : List (String × String)) :
    Option String :=
  pfxs.find? (enabledOn labels)

/-- Container filter (src/job.rs:103-112): with a selector configured,
some label must equal its key and value exactly. -/
def passesFilter (sel : Option Label) (labels : List (String × String)) : Bool :=
  match sel with
  | none => true
  | some l => labels.any (fun kv => kv.1 == l.key && kv.2 == l.value)

/-- Display name (src/job.rs:132-137): first reported name, else the
first 12 characters of the container id. -/
def containerDisplayName (c : ContainerSummary) : String :=
  match c.names with
  | some (n :: _) => n
  | _ => String.mk ((c.id.getD emptyStr).toList.take 12)

/-- The per-group loop of `discover` (src/job.rs:170-205): skip groups
missing `schedule` or `command` (with a warning), abort the whole pass on
a schedule parse failure, read the overlap policy from the trimmed
`no-overlap` value, and otherwise emit a `Job`. -/
def processGroups (O : ParseOracles D C) (cid cname : String) :
    List (String × PartialJobConfig) → Except DiscoverError (List (Job D C))
  | [] => Except.ok []
  | (jn, acc) :: rest =>
    match acc.schedule with
    | none => processGroups O cid cname rest
    | some schedStr =>
      match acc.command with
      | none => processGroups O cid cname rest
      | some cmd =>
        match jobScheduleFromStr O schedStr with
        | Except.error e => Except.error (DiscoverError.parseSchedule schedStr e)
        | Except.ok sched =>
          let overlap :=
            match acc.no_overlap with
            | some v => if trimStr v = "true" then OverlapPolicy.skip else OverlapPolicy.allow
            | none => OverlapPolicy.allow
          match processGroups O cid cname rest with
          | Except.error e => Except.error e
          | Except.ok jobs =>
            Except.ok (⟨cid, cname, jn, sched, cmd, overlap⟩ :: jobs)

/-- The per-container body of `discover` (src/job.rs:114-205), after the
selector filter: pick the effective prefix (none → no jobs), group the
job labels, process the groups. -/
def containerJobs (O : ParseOracles D C) (pfxs : List String)
    (c : ContainerSummary) : Except DiscoverError (List (Job D C)) :=
  let labels := c.labels.getD []
  match findEnabledPfx pfxs labels with
  | none => Except.ok []
  | some pfx =>
    processGroups O (c.id.getD emptyStr) (containerDisplayName c)
      (groupJobLabels pfx labels)

/-- Model of `discover` (src/job.rs:85-209) over a successful container
listing: filter each container by the selector, materialize its jobs,
abort the entire pass on the first error. -/
def discoverJobs (O : ParseOracles D C) (sel : Option Label)
    (pfxs : List String) : List ContainerSummary → Except DiscoverError (List (Job D C))
  | [] => Except.ok []
  | c :: cs =>
    if passesFilter sel (c.labels.getD []) then
      match containerJobs O pfxs c with
      | Except.error e => Except.error e
      | Except.ok js =>
        match discoverJobs O sel pfxs cs with
        | Except.error e => Except.error e
        | Except.ok rest => Except.ok (js ++ rest)
    else discoverJobs O sel pfxs cs

/-! ### Execution runner (`run_once`, src/job.rs:284-357)

One execution attempt against the Docker API.  The results of the three
Docker calls, and of `shlex::split` on the job's command string, are
inputs (`ExecEnv`); `none` stands for the call returning `Err` (for
`shlex::split`, for tokenization failure).  The model also records which
Docker calls were issued, so "skipped without an exec call" is provable.
The line-by-line log streaming of an attached exec session only emits
log records and never changes the return value, so the stream content is
carried but not consumed. -/

/-- The `running` field inside `state` of the inspect result. -/
structure ContainerState where
  running : Option Bool
deriving DecidableEq

structure InspectDetails where
  state : Option ContainerState
deriving DecidableEq

/-- One item of an attached exec output stream; the source matches only
`StdOut` and `StdErr` (the other `LogOutput` variants cannot be produced
by an exec attached to stdout/stderr without a tty). An `Except.error`
item models an `Err` chunk, which ends the `while let Some(Ok(..))`
consumption loop. -/
inductive StreamItem where
  | stdoutMsg (s : String)
  | stderrMsg (s : String)
deriving DecidableEq

instance {ε α : Type} [DecidableEq ε] [DecidableEq α] : DecidableEq (Except ε α) :=
  fun x y =>
  match x, y with
  | Except.ok a, Except.ok b =>
    if h : a = b then Decidable.isTrue (congrArg Except.ok h)
    else Decidable.isFalse (fun hc => h (Except.ok.inj hc))
  | Except.error a, Except.error b =>
    if h : a = b then Decidable.isTrue (congrArg Except.error h)
    else Decidable.isFalse (fun hc => h (Except.error.inj hc))
  | Except.ok _, Except.error _ => Decidable.isFalse (fun hc => Except.noConfusion hc)
  | Except.error _, Except.ok _ => Decidable.isFalse (fun hc => Except.noConfusion hc)

inductive StartResult where
  | attached (out : List (Except Unit StreamItem))
  | detached
deriving DecidableEq

/-- Results the environment hands to one `run_once` attempt. -/
structure ExecEnv where
  inspectResult : Option InspectDetails
  tokens : Option (List String)
  createResult : Option String
  startResult : Option StartResult
deriving DecidableEq

inductive DockerCall where
  | inspect
  | createExec
  | startExec
deriving DecidableEq

inductive ExecErr where
  | createFailed
  | startFailed
deriving DecidableEq

/-- Model of `run_once` (src/job.rs:284-357): returns the list of Docker
calls issued and the function's result.  Inspect failure, a non-running
container, and a failed or empty tokenization all return `Ok(())`
without an exec call; a `create_exec` or `start_exec` failure is
propagated as an error. -/
def runOnce (env : ExecEnv) : List DockerCall × Except ExecErr Unit :=
  match env.inspectResult with
  | none => ([DockerCall.inspect], Except.ok ())
  | some details =>
    let running := (details.state.bind (fun s => s.running)).getD false
    if running = false then ([DockerCall.inspect], Except.ok ())
    else
      match env.tokens with
      | some args =>
        if args.isEmpty then ([DockerCall.inspect], Except.ok ())
        else
          match env.createResult with
          | none =>
            ([DockerCall.inspect, DockerCall.createExec],
              Except.error ExecErr.createFailed)
          | some _ =>
            match env.startResult with
            | none =>
              ([DockerCall.inspect, DockerCall.createExec, DockerCall.startExec],
                Except.error ExecErr.startFailed)
            | some _ =>
              ([DockerCall.inspect, DockerCall.createExec, DockerCall.startExec],
                Except.ok ())
      | none => ([DockerCall.inspect], Except.ok ())

/-- The gates of `run_once` that must pass before any exec call:
a successful inspect reporting `running`, and a tokenization yielding a
nonempty argv. -/
def execGatesPass (env : ExecEnv) : Prop :=
  (∃ d, env.inspectResult = some d ∧ (d.state.bind (fun s => s.running)).getD false = true) ∧
  (∃ a, env.tokens = some a ∧ a ≠ [])

/-! ### Scheduler loop, interval branch (`run_loop`, src/job.rs:222-244)

Discrete-time trace model.  Time starts at 0 when the loop starts and
`tokio::time::interval(p)` is created: its first tick completes
immediately (deadline 0) and, under `MissedTickBehavior::Burst`, every
`tick()` completes at `max(now, deadline)` and advances the deadline by
exactly `p` — missed ticks are delivered one per `tick()` call, as fast
as possible, until the deadline catches up with the clock.

The loop body awaits `run_once_async`, and `run_once_async`
(src/job.rs:268-282) spawns the execution as a task and then awaits the
task's `JoinHandle`, so the loop clock advances by the execution's full
duration before the next `tick()` is observed.  `durs` lists the wall
durations of the successive executions; the trace is the list of times
at which the loop observes the ticks (= starts the executions). -/

/-- Tick-observation times of the interval loop: state `t` is the loop
clock (completion time of the previous execution), `dl` the timer's next
deadline.  Each step is one `tick().await` (completing at `max t dl`,
deadline advancing by `p`) followed by the awaited execution (clock
advancing by the execution duration). -/
def fireAux (p : Nat) : Nat → Nat → List Nat → List Nat
  | _, _, [] => []
  | t, dl, d :: ds =>
    let f := max t dl
    f :: fireAux p (f + d) (dl + p) ds

/-- `run_loop` on `JobSchedule::Every p`: the interval is created at
time 0 (first deadline 0); the warm-up `tick()` before the loop
(src/job.rs:227-228) completes immediately at 0 and moves the deadline
to `p`; then the loop ticks and executes. -/
def everyLoopFires (p : Nat) (durs : List Nat) : List Nat :=
  fireAux p 0 p durs

/-! ### Demo oracles

Concrete, executable instantiations of the crate oracles, used to
evaluate the model at the concrete inputs of witnesses and
counterexamples.  `demoOracles` (durations as seconds, `Nat`) implements
a small fragment of the humantime grammar — decimal digits followed by a
unit — and accepts as cron expressions exactly the strings of 6 or 7
nonempty whitespace-separated fields over the cron character set, which
agrees with the humantime and cron crates on every string these proofs
evaluate (in particular both reject `notaduration` and
`@every notaduration`). -/

def spaceStr : String := " "

def digitVal (c : Char) : Option Nat :=
  if c = '0' then some 0 else if c = '1' then some 1
  else if c = '2' then some 2 else if c = '3' then some 3
  else if c = '4' then some 4 else if c = '5' then some 5
  else if c = '6' then some 6 else if c = '7' then some 7
  else if c = '8' then some 8 else if c = '9' then some 9
  else none

def digitsVal : List Char → Option Nat → Option Nat
  | [], acc => acc
  | c :: cs, acc =>
    match digitVal c with
    | some d => digitsVal cs (some ((acc.getD 0) * 10 + d))
    | none => none

/-- Seconds per demo duration unit. -/
def unitSecs (u : String) : Option Nat :=
  if u = "s" then some 1
  else if u = "m" then some 60
  else if u = "h" then some 3600
  else if u = "d" then some 86400
  else if u = "day" then some 86400
  else none

/-- Demo duration parser: `<digits><unit>`. -/
def demoParseDuration (s : String) : Option Nat :=
  let cs := s.toList
  let ds := cs.takeWhile (fun c => (digitVal c).isSome)
  let rest := cs.dropWhile (fun c => (digitVal c).isSome)
  match digitsVal ds none with
  | none => none
  | some n =>
    match unitSecs (String.mk rest) with
    | some k => some (n * k)
    | none => none

def cronFieldChar (c : Char) : Bool :=
  (digitVal c).isSome || c = '*' || c = ',' || c = '-' || c = '/'

/-- Demo cron acceptor: 6 or 7 nonempty fields of cron characters,
encoded as the list of fields. -/
def demoParseCron (s : String) : Option (List String) :=
  let fields := (s.toList.splitOn ' ').map String.mk
  if (fields.length = 6 ∨ fields.length = 7) ∧
      (∀ f ∈ fields, f.toList ≠ [] ∧ ∀ c ∈ f.toList, cronFieldChar c = true) then
    some fields
  else none

def demoOracles : ParseOracles Nat (List String) where
  parseDuration := demoParseDuration
  formatDuration := fun n => String.mk (Nat.toDigits 10 n) ++ "s"
  parseCron := demoParseCron
  formatCron := fun fs => String.intercalate spaceStr fs
  secs := fun n => n

/-- Degenerate oracles over `Unit`, satisfying the round-trip laws of
humantime and cron by construction; used to instantiate round-trip
theorems at a concrete schedule. -/
def unitOracles : ParseOracles Unit Unit where
  parseDuration := fun s => if s = "1s" then some () else none
  formatDuration := fun _ => "1s"
  parseCron := fun s => if s = "0 0 * * * *" then some () else none
  formatCron := fun _ => "0 0 * * * *"
  secs := fun _ => ()

/-! ### Derived predicates and spec-side definitions -/

/-- A job group that is well-formed (both `schedule` and `command`
present) but whose schedule string fails to parse — the one situation
that aborts a discovery pass. -/
def isFailingGroup (O : ParseOracles D C) (g : String × PartialJobConfig) : Prop :=
  ∃ s cmd e, g.2.schedule = some s ∧ g.2.command = some cmd ∧
    jobScheduleFromStr O s = Except.error e

/-- A discovery error names an offending schedule string: the string it
carries really fails to parse with the error it carries. -/
def errNamesFailing (O : ParseOracles D C) : DiscoverError → Prop
  | .parseSchedule s e => jobScheduleFromStr O s = Except.error e

/-- Modelled from the spec (§4.1), for comparison against
`jobScheduleFromStr`: the five grammar forms checked in order —
`@every ` + duration, `@cron ` + cron expression, the four macro
literals, raw cron expression — with the payload parse errors of the
first two forms propagated, and everything else rejected as an
unsupported schedule. -/
def specSchedParse (O : ParseOracles D C) (s0 : String) :
    Except ScheduleParseError (JobSchedule D C) :=
  let t := trimStr s0
  match dropPfx everyPfxStr t, dropPfx cronPfxStr t with
  | some rest, _ =>
    match O.parseDuration rest with
    | some d => Except.ok (JobSchedule.every d)
    | none => Except.error ScheduleParseError.durationError
  | none, some rest =>
    match O.parseCron rest with
    | some c => Except.ok (JobSchedule.cron c)
    | none => Except.error ScheduleParseError.cronError
  | none, none =>
    if t = "@hourly" then Except.ok (JobSchedule.every (O.secs 3600))
    else if t = "@daily" then Except.ok (JobSchedule.every (O.secs 86400))
    else if t = "@weekly" then Except.ok (JobSchedule.every (O.secs 604800))
    else if t = "@monthly" then Except.ok (JobSchedule.every (O.secs 2592000))
    else
      match O.parseCron t with
      | some c => Except.ok (JobSchedule.cron c)
      | none => Except.error (ScheduleParseError.unsupported t)

/-- Modelled from the spec (§4.1, §8): does `s0` match one of the five
recognized grammar forms (under the given oracles)?  This is the
spec-side notion the original C4 claim quantifies over. -/
def matchesAnyFormB (O : ParseOracles D C) (s0 : String) : Bool :=
  let t := trimStr s0
  (match dropPfx everyPfxStr t with
   | some rest => (O.parseDuration rest).isSome
   | none => false) ||
  (match dropPfx cronPfxStr t with
   | some rest => (O.parseCron rest).isSome
   | none => false) ||
  (t == "@hourly" || t == "@daily" || t == "@weekly" || t == "@monthly") ||
  (O.parseCron t).isSome

/-- A string containing no `.` — the shape of the default label
prefixes (`dockcron`, `ofelia`, `chadburn`); dot-free prefixes have
disjoint job-label namespaces. -/
def dotFree (s : String) : Prop := ∀ c ∈ s.toList, c ≠ '.'

instance (s : String) : Decidable (dotFree s) := by
  unfold dotFree
  infer_instance

/-! ### Concrete instances used by witnesses and counterexamples -/

/-- Spec end-to-end scenario 5's malformed schedule string. -/
def badSched : String := "@every notaduration"

def hourlyStr : String := "@hourly"

def wsPad1 : String := "  "

def wsPad2 : String := " "

/-- A container with one well-formed job (spec scenario 1 flavour). -/
def cGood : ContainerSummary :=
  ⟨some "aaaabbbbccccdddd", some ["/web"],
   some [("dockcron.enabled", "true"),
         ("dockcron.job-exec.backup.schedule", "@every 1h"),
         ("dockcron.job-exec.backup.command", "tar -czf /backup.tgz /data")]⟩

/-- A container whose single job group carries the malformed schedule of
scenario 5. -/
def cBad : ContainerSummary :=
  ⟨some "eeee", some ["/db"],
   some [("dockcron.enabled", "true"),
         ("dockcron.job-exec.x.schedule", badSched),
         ("dockcron.job-exec.x.command", "echo hi")]⟩


/-- Labels of a container enabled under both the first and the second
configured prefix, with jobs defined under the first. -/
def twoPfxLabels : List (String × String) :=
  [("dockcron.enabled", "true"),
   ("ofelia.enabled", "true"),
   ("dockcron.job-exec.main.schedule", "@hourly"),
   ("dockcron.job-exec.main.command", "echo main")]

/-- Labels of `cNoEnable`: no prefix is enabled with the literal `true`. -/
def noEnableLabels : List (String × String) :=
  [("dockcron.enabled", "false"),
   ("dockcron.job-exec.j.schedule", "@hourly"),
   ("dockcron.job-exec.j.command", "echo j")]

def ofeliaPfx : String := "ofelia"

/-- A container with no `<p>.enabled = "true"` label at all. -/
def cNoEnable : ContainerSummary :=
  ⟨some "gggg", some ["/idle"], some noEnableLabels⟩

/-- A container enabled under the first prefix; used to show job labels
under a later (also enabled) prefix are ignored. -/
def cTwoPfx : ContainerSummary :=
  ⟨some "hhhh", some ["/two"], some twoPfxLabels⟩

/-- Extra job labels under the second prefix of `cTwoPfx`. -/
def ofeliaExtras : List (String × String) :=
  [("ofelia.job-exec.ghost.schedule", "@hourly"),
   ("ofelia.job-exec.ghost.command", "echo ghost")]

/-- Well-formed group for the C6 witness. -/
def grpA : String × PartialJobConfig :=
  ("a", ⟨some "@hourly", some "echo a", none⟩)

/-- Group missing its `command` value (to be skipped). -/
def grpNoCmd : String × PartialJobConfig :=
  ("b", ⟨some "@hourly", none, some "true"⟩)

/-- Well-formed group for the C6 witness. -/
def grpC : String × PartialJobConfig :=
  ("c", ⟨some "@daily", some "echo c", none⟩)

def cidStr : String := "cid"

def cnStr : String := "cn"

def dockcronPfx : String := "dockcron"

def dcPfxs : List String := ["dockcron"]

def dcOfPfxs : List String := ["dockcron", "ofelia"]

/-- The job group that `cBad`'s labels produce. -/
def cBadGrp : String × PartialJobConfig :=
  ("x", ⟨some badSched, some "echo hi", none⟩)

/-- Execution environment: the inspect call itself fails. -/
def envInspectFail : ExecEnv :=
  ⟨none, some ["echo", "hi"], some "execid", some StartResult.detached⟩

/-- Execution environment: container running, tokenization fine, but
`create_exec` fails. -/
def envCreateFail : ExecEnv :=
  ⟨some ⟨some ⟨some true⟩⟩, some ["echo", "hi"], none, none⟩

/-! ## Helper lemmas: interval loop trace -/

theorem fireAux_length (p : Nat) :
    ∀ (ds : List Nat) (t dl : Nat), (fireAux p t dl ds).length = ds.length := by
  intro ds
  induction ds with
  | nil => intro t dl; rfl
  | cons d ds ih => intro t dl; simp [fireAux, ih]

theorem fireAux_get_ge (p : Nat) :
    ∀ (ds : List Nat) (t dl i f : Nat),
      (fireAux p t dl ds).get? i = some f → dl + i * p ≤ f := by
  intro ds
  induction ds with
  | nil => intro t dl i f h; simp [fireAux] at h
  | cons d ds ih =>
    intro t dl i f h
    match i with
    | 0 =>
      simp [fireAux] at h
      omega
    | j + 1 =>
      simp only [fireAux, List.get?_cons_succ] at h
      have := ih (max t dl + d) (dl + p) j f h
      have harith : dl + (j + 1) * p = dl + p + j * p := by ring
      omega

theorem fireAux_get_succ (p : Nat) :
    ∀ (ds : List Nat) (t dl i d f0 f1 : Nat),
      ds.get? i = some d →
      (fireAux p t dl ds).get? i = some f0 →
      (fireAux p t dl ds).get? (i + 1) = some f1 →
      f1 = max (f0 + d) (dl + (i + 1) * p) := by
  intro ds
  induction ds with
  | nil => intro t dl i d f0 f1 hd _ _; simp at hd
  | cons d0 ds ih =>
    intro t dl i d f0 f1 hd h0 h1
    match i with
    | 0 =>
      simp at hd
      simp [fireAux] at h0 h1
      match ds, h1 with
      | e :: es, h1 =>
        simp [fireAux] at h1
        subst hd h0
        omega
    | j + 1 =>
      simp only [List.get?_cons_succ] at hd
      simp only [fireAux, List.get?_cons_succ] at h0 h1
      have := ih (max t dl + d0) (dl + p) j d f0 f1 hd h0 h1
      have harith : dl + p + (j + 1) * p = dl + (j + 1 + 1) * p := by ring
      omega

/-! ## Claims C1, C2, C9: scheduler loop timing -/

/-- C1 (code bug witness evaluation). The claim — and §4.3 of the spec —
say every execution is dispatched as an independent concurrent task so
that a long-running command cannot stall the loop's observation of the
next tick.  The code spawns the task but then awaits its `JoinHandle`
(`run_once_async`, src/job.rs:272-277), so the loop is blocked for the
full duration of the execution: with period 2 and a first execution
taking 5 units, the second tick (deadline 4) is observed only at time 7,
the completion time of the first execution, whereas with instantaneous
executions it is observed at 4.  The skip branch of the overlap gate
(src/job.rs:238-240) is unreachable under this blocking behaviour, which
shows the spawned-but-awaited task is a slip in the code rather than in
the spec. -/
theorem c1_loop_blocked_by_execution :
    everyLoopFires 2 [5, 0] = [2, 7] ∧ everyLoopFires 2 [0, 0] = [2, 4] := by
  constructor <;> rfl

/-- C2 counterexample. The claim says missed ticks are coalesced into a
single immediate catch-up fire ("one fire per missed stretch").  Under
`MissedTickBehavior::Burst` (src/job.rs:225) the timer instead fires one
immediate tick per missed deadline: with period 2 and a first execution
lasting 5 units, deadlines 4 and 6 are both missed and the loop fires
twice at time 7 — a backlog of two queued ticks for one missed stretch,
not a single coalesced fire (which would leave the third fire at its
deadline 8). -/
theorem c2_counterexample_burst_backlog :
    everyLoopFires 2 [5, 0, 0] = [2, 7, 7] ∧
      List.count 7 (everyLoopFires 2 [5, 0, 0]) = 2 := by
  constructor <;> rfl

/-- C2 (amended). The interval timer never skips or coalesces ticks:
the loop fires exactly once per scheduled tick (trace length = number of
executions), and the `(i+1)`-th fire happens at
`max (completion of execution i) ((i+2)·p)` — so each missed deadline
yields one immediate catch-up fire, the backlog is burst through as fast
as possible, and once caught up the timer continues on the original
p-multiples grid (it never falls permanently behind). -/
theorem c2_burst_fires_once_per_missed_tick
    (p : Nat) (ds : List Nat) (i d f0 f1 : Nat) :
    (everyLoopFires p ds).length = ds.length ∧
      (ds.get? i = some d →
        (everyLoopFires p ds).get? i = some f0 →
        (everyLoopFires p ds).get? (i + 1) = some f1 →
        f1 = max (f0 + d) ((i + 2) * p)) := by
  constructor
  · exact fireAux_length p ds 0 p
  · intro hd h0 h1
    have h := fireAux_get_succ p ds 0 p i d f0 f1 hd h0 h1
    have harith : p + (i + 1) * p = (i + 2) * p := by ring
    omega

/-- Witness for C2 (amended), at period 2 with executions of durations
5, 0, 0: the loop fires once per tick, and the fire following the
catch-up fire at time 7 is at `max (7+0) 6 = 7`. -/
theorem c2_burst_witness :
    (everyLoopFires 2 [5, 0, 0]).length = [5, 0, 0].length ∧
      (7 : Nat) = max (7 + 0) ((1 + 2) * 2) := by
  refine ⟨(c2_burst_fires_once_per_missed_tick 2 [5, 0, 0] 1 0 7 7).1, ?_⟩
  exact (c2_burst_fires_once_per_missed_tick 2 [5, 0, 0] 1 0 7 7).2
    (by rfl) (by rfl) (by rfl)

/-- C9. An interval job never fires early: the `i`-th execution attempt
of the loop starts no sooner than `(i+1)·p` after the loop starts.  In
particular (i = 0) the first attempt is at least one full interval after
start: the warm-up `tick()` before the loop (src/job.rs:227-228)
consumes the interval's immediate first tick, so the loop does not fire
at startup. -/
theorem c9_first_fire_after_one_interval
    (p : Nat) (durs : List Nat) (i f : Nat)
    (h : (everyLoopFires p durs).get? i = some f) :
    (i + 1) * p ≤ f := by
  have := fireAux_get_ge p durs 0 p i f h
  have harith : (i + 1) * p = p + i * p := by ring
  omega

/-- Witness for C9 at `@every 1h` (period 3600s, spec scenario 1): the
first fire is at 3600, no sooner than one interval after loop start. -/
theorem c9_witness :
    (everyLoopFires 3600 [0]).get? 0 = some 3600 ∧ (0 + 1) * 3600 ≤ 3600 := by
  exact ⟨by rfl, c9_first_fire_after_one_interval 3600 [0] 0 3600 (by rfl)⟩

/-! ## Claim C8: execution runner outcome classification -/

/-- C8. A single `run_once` attempt returns success-as-skipped — `Ok`
with no exec call issued, only the inspect call — whenever the inspect
call fails, the container is not reported running, or tokenizing the
command fails or yields zero tokens; and it returns an error if and only
if all those gates pass and creating or starting the exec session fails
(src/job.rs:284-357). -/
theorem c8_run_once_skip_and_error (env : ExecEnv) :
    ((env.inspectResult = none ∨
      (∃ d, env.inspectResult = some d ∧
        (d.state.bind (fun s => s.running)).getD false = false) ∨
      env.tokens = none ∨ env.tokens = some []) →
      runOnce env = ([DockerCall.inspect], Except.ok ())) ∧
    ((∃ e, (runOnce env).2 = Except.error e) ↔
      execGatesPass env ∧ (env.createResult = none ∨ env.startResult = none)) := by
  obtain ⟨ir, tk, cr, sr⟩ := env
  rcases ir with _ | d
  · exact ⟨fun _ => rfl, by simp [runOnce, execGatesPass]⟩
  · cases hrun : (d.state.bind (fun s => s.running)).getD false with
    | false =>
      exact ⟨fun _ => by simp [runOnce, hrun], by simp [runOnce, execGatesPass, hrun]⟩
    | true =>
      rcases tk with _ | args
      · exact ⟨fun _ => by simp [runOnce, hrun], by simp [runOnce, execGatesPass, hrun]⟩
      · cases hargs : args.isEmpty with
        | true =>
          have hnil : args = [] := by simpa using hargs
          subst hnil
          exact ⟨fun _ => by simp [runOnce, hrun],
            by simp [runOnce, execGatesPass, hrun]⟩
        | false =>
          have hne : args ≠ [] := by
            intro hc; subst hc; simp at hargs
          constructor
          · intro h
            rcases h with h | ⟨d2, hd2, h2⟩ | h | h <;> simp_all
          · rcases cr with _ | cid
            · simp [runOnce, execGatesPass, hrun, hargs, hne]
            · rcases sr with _ | r
              · simp [runOnce, execGatesPass, hrun, hargs, hne]
              · simp [runOnce, execGatesPass, hrun, hargs, hne]

/-- Witness for C8: a failed inspect call yields `Ok` with only the
inspect call issued; a running container with a good command but a
failing `create_exec` yields an error. -/
theorem c8_witness :
    runOnce envInspectFail = ([DockerCall.inspect], Except.ok ()) ∧
      (∃ e, (runOnce envCreateFail).2 = Except.error e) := by
  constructor
  · exact (c8_run_once_skip_and_error envInspectFail).1 (Or.inl rfl)
  · exact (c8_run_once_skip_and_error envCreateFail).2.mpr
      ⟨⟨⟨⟨some ⟨some true⟩⟩, rfl, rfl⟩, ⟨["echo", "hi"], rfl, by simp⟩⟩, Or.inl rfl⟩

/-! ## Helper lemmas: trimming and prefixes -/

theorem dropWhile_ws_append (w l : List Char) (hw : ∀ c ∈ w, isWs c = true) :
    (w ++ l).dropWhile isWs = l.dropWhile isWs := by
  induction w with
  | nil => rfl
  | cons c w ih =>
    rw [List.cons_append, List.dropWhile_cons_of_pos (hw c (by simp))]
    exact ih (fun c2 hc2 => hw c2 (by simp [hc2]))

theorem dropWhile_ws_all (w : List Char) (hw : ∀ c ∈ w, isWs c = true) :
    w.dropWhile isWs = [] := by
  have h := dropWhile_ws_append w [] hw
  simpa using h

theorem dropWhile_nil_all (l : List Char) (h : l.dropWhile isWs = []) :
    ∀ c ∈ l, isWs c = true := by
  induction l with
  | nil => simp
  | cons c l ih =>
    by_cases hc : isWs c = true
    · rw [List.dropWhile_cons_of_pos hc] at h
      intro c2 hc2
      rcases List.mem_cons.mp hc2 with rfl | h2
      · exact hc
      · exact ih h c2 h2
    · rw [List.dropWhile_cons_of_neg hc] at h
      exact absurd h (by simp)

theorem dropWhile_append_of_ne_nil (l x : List Char) (h : l.dropWhile isWs ≠ []) :
    (l ++ x).dropWhile isWs = l.dropWhile isWs ++ x := by
  induction l with
  | nil => simp at h
  | cons c l ih =>
    by_cases hc : isWs c = true
    · rw [List.dropWhile_cons_of_pos hc] at h
      rw [List.cons_append, List.dropWhile_cons_of_pos hc,
        List.dropWhile_cons_of_pos hc]
      exact ih h
    · rw [List.cons_append, List.dropWhile_cons_of_neg hc,
        List.dropWhile_cons_of_neg hc, List.cons_append]

theorem dropTrailWs_append_ws (l w : List Char) (hw : ∀ c ∈ w, isWs c = true) :
    dropTrailWs (l ++ w) = dropTrailWs l := by
  unfold dropTrailWs
  rw [List.reverse_append,
    dropWhile_ws_append w.reverse l.reverse
      (fun c hc => hw c (List.mem_reverse.mp hc))]

theorem trimChars_pad (w1 l w2 : List Char)
    (h1 : ∀ c ∈ w1, isWs c = true) (h2 : ∀ c ∈ w2, isWs c = true) :
    trimChars (w1 ++ l ++ w2) = trimChars l := by
  unfold trimChars
  rw [List.append_assoc, dropWhile_ws_append w1 (l ++ w2) h1]
  by_cases hl : l.dropWhile isWs = []
  · rw [dropWhile_ws_append l w2 (dropWhile_nil_all l hl),
      dropWhile_ws_all w2 h2, hl]
  · rw [dropWhile_append_of_ne_nil l w2 hl]
    exact dropTrailWs_append_ws _ w2 h2

theorem toList_append (a b : String) : (a ++ b).toList = a.toList ++ b.toList :=
  String.data_append a b

theorem trimStr_pad (w1 s w2 : String)
    (h1 : ∀ c ∈ w1.toList, isWs c = true) (h2 : ∀ c ∈ w2.toList, isWs c = true) :
    trimStr (w1 ++ s ++ w2) = trimStr s := by
  unfold trimStr
  have hts : (w1 ++ s ++ w2).toList = w1.toList ++ s.toList ++ w2.toList := by
    rw [toList_append, toList_append]
  rw [hts, trimChars_pad _ _ _ h1 h2]

/-! ## Claim C10: whitespace trimming before parsing -/

/-- C10. `JobSchedule::from_str` trims its input before matching any
grammar form (src/job.rs:58): for every schedule string `s` and any
whitespace padding on either side, parsing the padded string yields
exactly the result of parsing `s` itself — for any duration/cron
oracles. -/
theorem c10_parse_trims_whitespace (O : ParseOracles D C) (w1 s w2 : String)
    (h1 : ∀ c ∈ w1.toList, isWs c = true) (h2 : ∀ c ∈ w2.toList, isWs c = true) :
    jobScheduleFromStr O (w1 ++ s ++ w2) = jobScheduleFromStr O s := by
  unfold jobScheduleFromStr
  rw [trimStr_pad w1 s w2 h1 h2]

/-- Witness for C10: `"  @hourly "` parses exactly as `"@hourly"`, namely
to the 3600-second interval. -/
theorem c10_witness :
    jobScheduleFromStr demoOracles (wsPad1 ++ hourlyStr ++ wsPad2) =
        jobScheduleFromStr demoOracles hourlyStr ∧
      jobScheduleFromStr demoOracles hourlyStr =
        Except.ok (JobSchedule.every (demoOracles.secs 3600)) := by
  constructor
  · exact c10_parse_trims_whitespace demoOracles wsPad1 hourlyStr wsPad2
      (by decide) (by decide)
  · rfl

/-! ## Helper lemmas: prefix stripping -/

theorem isPfxOf_self_append : ∀ (p r : List Char), isPfxOf p (p ++ r) = some r := by
  intro p
  induction p with
  | nil => intro r; rfl
  | cons c p ih => intro r; simp [isPfxOf, ih]

theorem isPfxOf_some : ∀ (p s r : List Char), isPfxOf p s = some r → s = p ++ r := by
  intro p
  induction p with
  | nil =>
    intro s r h
    simp only [isPfxOf, Option.some.injEq] at h
    simp [h]
  | cons c p ih =>
    intro s r h
    match s with
    | [] => simp [isPfxOf] at h
    | y :: ys =>
      simp only [isPfxOf] at h
      by_cases hcy : c = y
      · rw [if_pos hcy] at h
        subst hcy
        rw [List.cons_append, ih ys r h]
      · rw [if_neg hcy] at h
        exact absurd h (by simp)

theorem dropPfx_self_append (p r : String) : dropPfx p (p ++ r) = some r := by
  unfold dropPfx
  rw [toList_append p r, isPfxOf_self_append]
  rfl

theorem dropPfx_some (p k t : String) (h : dropPfx p k = some t) :
    k.toList = p.toList ++ t.toList := by
  unfold dropPfx at h
  cases hi : isPfxOf p.toList k.toList with
  | none => rw [hi] at h; simp at h
  | some r =>
    rw [hi] at h
    have h2 : String.mk r = t := by simpa using h
    have hk := isPfxOf_some _ _ _ hi
    rw [hk, ← h2]
    rfl

theorem dropPfx_every_cron (fc : String) :
    dropPfx everyPfxStr (cronPfxStr ++ fc) = none := by
  cases h : dropPfx everyPfxStr (cronPfxStr ++ fc) with
  | none => rfl
  | some t =>
    exfalso
    have h2 := dropPfx_some _ _ _ h
    rw [toList_append] at h2
    have h3 : cronPfxStr.toList = ['@', 'c', 'r', 'o', 'n', ' '] := rfl
    have h4 : everyPfxStr.toList = ['@', 'e', 'v', 'e', 'r', 'y', ' '] := rfl
    rw [h3, h4] at h2
    have h2b : ('@' :: 'c' :: 'r' :: 'o' :: 'n' :: ' ' :: fc.toList) =
        ('@' :: 'e' :: 'v' :: 'e' :: 'r' :: 'y' :: ' ' :: t.toList) := h2
    have h5 := List.cons.inj h2b
    have h6 := List.cons.inj h5.2
    exact absurd h6.1 (by decide)

/-! ## Claim C5: render/parse round trip -/

/-- C5. An `Interval` renders as `@every <duration>` and a
`CronExpression` as `@cron <expression>` (src/job.rs:40-53), and parsing
the rendered form of any schedule reproduces it, provided the duration
and cron crates round-trip their own output (humantime:
`parse` of `format` returns the same duration; cron: re-parsing
the displayed expression yields the same compiled schedule) and their
rendered text carries no surrounding whitespace.  Macro shorthands never
arise here: rendering only ever produces the two prefixed forms. -/
theorem c5_render_parse_round_trip (O : ParseOracles D C) (sch : JobSchedule D C)
    (hd : ∀ d, O.parseDuration (O.formatDuration d) = some d)
    (hc : ∀ c, O.parseCron (O.formatCron c) = some c)
    (hdt : ∀ d, trimStr (everyPfxStr ++ O.formatDuration d) =
      everyPfxStr ++ O.formatDuration d)
    (hct : ∀ c, trimStr (cronPfxStr ++ O.formatCron c) =
      cronPfxStr ++ O.formatCron c) :
    (jobScheduleRender O sch =
      match sch with
      | .every d => everyPfxStr ++ O.formatDuration d
      | .cron c => cronPfxStr ++ O.formatCron c) ∧
    jobScheduleFromStr O (jobScheduleRender O sch) = Except.ok sch := by
  constructor
  · cases sch <;> rfl
  · cases sch with
    | every d =>
      show jobScheduleFromStr O (everyPfxStr ++ O.formatDuration d) = _
      unfold jobScheduleFromStr
      rw [hdt d]
      simp [dropPfx_self_append, hd d]
    | cron c =>
      show jobScheduleFromStr O (cronPfxStr ++ O.formatCron c) = _
      unfold jobScheduleFromStr
      rw [hct c]
      simp [dropPfx_every_cron, dropPfx_self_append, hc c]

/-- Witness for C5, with oracles that round-trip by construction: both
an interval and a cron schedule survive render-then-parse. -/
theorem c5_witness :
    jobScheduleFromStr unitOracles
        (jobScheduleRender unitOracles (JobSchedule.every ())) =
      Except.ok (JobSchedule.every ()) ∧
    jobScheduleFromStr unitOracles
        (jobScheduleRender unitOracles (JobSchedule.cron ())) =
      Except.ok (JobSchedule.cron ()) := by
  constructor
  · exact (c5_render_parse_round_trip unitOracles (JobSchedule.every ())
      (fun _ => rfl) (fun _ => rfl) (fun _ => rfl) (fun _ => rfl)).2
  · exact (c5_render_parse_round_trip unitOracles (JobSchedule.cron ())
      (fun _ => rfl) (fun _ => rfl) (fun _ => rfl) (fun _ => rfl)).2

/-! ## Claim C4: the parsing grammar, form by form -/

/-- C4 counterexample. The claim says every string matching none of the
five grammar forms fails with the unsupported-schedule error.  The
string `"@every notaduration"` matches no form (its duration payload is
invalid, and it is not a cron expression), yet `from_str` fails with the
propagated duration parse error (src/job.rs:60), not with the
`unsupported schedule` error of src/job.rs:77. -/
theorem c4_counterexample_every_bad_duration :
    jobScheduleFromStr demoOracles badSched =
        Except.error ScheduleParseError.durationError ∧
      isUnsupportedErr ScheduleParseError.durationError = false ∧
      matchesAnyFormB demoOracles badSched = false := by
  exact ⟨rfl, rfl, rfl⟩

/-- C4 (amended). Parsing checks the five forms in the documented order
and is total over the grammar: `from_str` coincides, for every input and
every choice of duration/cron oracle, with the spec-side parser that
tries `@every ` + duration, then `@cron ` + cron expression, then the
four macro literals, then a raw cron expression — where a present
`@every `/`@cron ` prefix with an unparseable payload fails with that
payload's parse error, and a string matching no form and carrying
neither prefix fails with the unsupported-schedule error naming the
trimmed input. -/
theorem c4_parse_follows_spec_forms (O : ParseOracles D C) (s0 : String) :
    jobScheduleFromStr O s0 = specSchedParse O s0 := by
  unfold jobScheduleFromStr specSchedParse
  cases h1 : dropPfx everyPfxStr (trimStr s0) with
  | some rest => simp [h1]
  | none =>
    cases h2 : dropPfx cronPfxStr (trimStr s0) with
    | some rest => simp [h1, h2]
    | none =>
      simp only [h1, h2]
      by_cases hh : trimStr s0 = "@hourly"
      · simp [hh]
      · by_cases hd : trimStr s0 = "@daily"
        · simp [hh, hd]
        · have h24 : trimStr s0 ≠ "@every 24h" := by
            intro hc
            rw [hc] at h1
            exact absurd h1 (by decide)
          by_cases hw : trimStr s0 = "@weekly"
          · simp [hh, hd, h24, hw]
          · by_cases hm : trimStr s0 = "@monthly"
            · simp [hh, hd, h24, hw, hm]
            · simp [hh, hd, h24, hw, hm]

/-! ## Claim C6: groups missing schedule or command are skipped -/

/-- C6. A job group lacking a `schedule` value or lacking a `command`
value contributes no `Job` and is simply dropped from the group list
(after a warning, src/job.rs:173-186): discovery of the remaining groups
proceeds exactly as if the malformed group were absent, so every other
well-formed group still materializes — and since `discoverJobs` processes
containers independently, so do the groups of every other container. -/
theorem c6_missing_field_group_skipped (O : ParseOracles D C)
    (cid cname : String) (gs1 gs2 : List (String × PartialJobConfig))
    (jn : String) (acc : PartialJobConfig)
    (h : acc.schedule = none ∨ acc.command = none) :
    processGroups O cid cname (gs1 ++ (jn, acc) :: gs2) =
      processGroups O cid cname (gs1 ++ gs2) := by
  induction gs1 with
  | nil =>
    simp only [List.nil_append]
    rcases h with h | h
    · simp only [processGroups, h]
    · cases hs : acc.schedule with
      | none => simp only [processGroups, hs]
      | some s => simp only [processGroups, hs, h]
  | cons g gs1 ih =>
    obtain ⟨n0, a0⟩ := g
    simp only [List.cons_append, processGroups, List.append_eq, ih]

/-- Witness for C6: dropping the command-less group `b` leaves discovery
of groups `a` and `c` untouched, and those two still materialize. -/
theorem c6_witness :
    processGroups demoOracles cidStr cnStr ([grpA] ++ grpNoCmd :: [grpC]) =
        processGroups demoOracles cidStr cnStr ([grpA] ++ [grpC]) ∧
      processGroups demoOracles cidStr cnStr ([grpA] ++ [grpC]) =
        Except.ok
          [⟨cidStr, cnStr, "a", JobSchedule.every 3600, "echo a", OverlapPolicy.allow⟩,
           ⟨cidStr, cnStr, "c", JobSchedule.every 86400, "echo c", OverlapPolicy.allow⟩] := by
  constructor
  · exact c6_missing_field_group_skipped demoOracles cidStr cnStr
      [grpA] [grpC] "b" ⟨some "@hourly", none, some "true"⟩ (Or.inr rfl)
  · decide

/-! ## Helper lemmas: discovery error propagation -/

theorem processGroups_error_names (O : ParseOracles D C) (cid cname : String) :
    ∀ (gs : List (String × PartialJobConfig)) (err : DiscoverError),
      processGroups O cid cname gs = Except.error err → errNamesFailing O err := by
  intro gs
  induction gs with
  | nil => intro err h; exact absurd h (by simp [processGroups])
  | cons g rest ih =>
    obtain ⟨jn, acc⟩ := g
    intro err h
    simp only [processGroups] at h
    cases h0 : acc.schedule with
    | none =>
      simp only [h0] at h
      exact ih err h
    | some s =>
      simp only [h0] at h
      cases h1 : acc.command with
      | none =>
        simp only [h1] at h
        exact ih err h
      | some cmd =>
        simp only [h1] at h
        cases h2 : jobScheduleFromStr O s with
        | error e =>
          simp only [h2, Except.error.injEq] at h
          rw [← h]
          exact h2
        | ok sched =>
          simp only [h2] at h
          cases h3 : processGroups O cid cname rest with
          | error e2 =>
            simp only [h3, Except.error.injEq] at h
            rw [← h]
            exact ih e2 h3
          | ok jobs =>
            simp only [h3] at h
            exact absurd h (by simp)

theorem processGroups_error_of_failing (O : ParseOracles D C) (cid cname : String) :
    ∀ (gs : List (String × PartialJobConfig)),
      (∃ g ∈ gs, isFailingGroup O g) →
      ∃ err, processGroups O cid cname gs = Except.error err := by
  intro gs
  induction gs with
  | nil =>
    rintro ⟨g, hg, _⟩
    simp at hg
  | cons g0 rest ih =>
    obtain ⟨jn, acc⟩ := g0
    rintro ⟨g, hg, hfail⟩
    rcases List.mem_cons.mp hg with rfl | hmem
    · obtain ⟨s, cmd, e, hs, hc2, he⟩ := hfail
      have hs2 : acc.schedule = some s := hs
      have hc3 : acc.command = some cmd := hc2
      exact ⟨DiscoverError.parseSchedule s e,
        by simp only [processGroups, hs2, hc3, he]⟩
    · obtain ⟨err, herr⟩ := ih ⟨g, hmem, hfail⟩
      cases h0 : acc.schedule with
      | none => exact ⟨err, by simp only [processGroups, h0]; exact herr⟩
      | some s0 =>
        cases h1 : acc.command with
        | none => exact ⟨err, by simp only [processGroups, h0, h1]; exact herr⟩
        | some c0 =>
          cases h2 : jobScheduleFromStr O s0 with
          | error e0 =>
            exact ⟨DiscoverError.parseSchedule s0 e0,
              by simp only [processGroups, h0, h1, h2]⟩
          | ok sched =>
            exact ⟨err, by simp only [processGroups, h0, h1, h2, herr]⟩

theorem containerJobs_error_names (O : ParseOracles D C) (pfxs : List String)
    (c : ContainerSummary) (err : DiscoverError)
    (h : containerJobs O pfxs c = Except.error err) : errNamesFailing O err := by
  simp only [containerJobs] at h
  cases hp : findEnabledPfx pfxs (c.labels.getD []) with
  | none =>
    simp only [hp] at h
    exact absurd h (by simp)
  | some pfx =>
    simp only [hp] at h
    exact processGroups_error_names O _ _ _ err h

theorem discoverJobs_error_names (O : ParseOracles D C) (sel : Option Label)
    (pfxs : List String) :
    ∀ (cs : List ContainerSummary) (err : DiscoverError),
      discoverJobs O sel pfxs cs = Except.error err → errNamesFailing O err := by
  intro cs
  induction cs with
  | nil => intro err h; simp [discoverJobs] at h
  | cons c0 rest ih =>
    intro err h
    simp only [discoverJobs] at h
    cases hf : passesFilter sel (c0.labels.getD []) with
    | false =>
      simp only [hf] at h
      exact ih err h
    | true =>
      simp only [hf, if_true] at h
      cases hc : containerJobs O pfxs c0 with
      | error e =>
        simp only [hc, Except.error.injEq] at h
        rw [← h]
        exact containerJobs_error_names O pfxs c0 e hc
      | ok js =>
        simp only [hc] at h
        cases hr : discoverJobs O sel pfxs rest with
        | error e2 =>
          simp only [hr, Except.error.injEq] at h
          rw [← h]
          exact ih e2 hr
        | ok rest2 =>
          simp only [hr] at h
          exact absurd h (by simp)

theorem discoverJobs_error_of_container (O : ParseOracles D C) (sel : Option Label)
    (pfxs : List String) :
    ∀ (cs : List ContainerSummary) (c : ContainerSummary), c ∈ cs →
      passesFilter sel (c.labels.getD []) = true →
      (∃ e0, containerJobs O pfxs c = Except.error e0) →
      ∃ err, discoverJobs O sel pfxs cs = Except.error err := by
  intro cs
  induction cs with
  | nil => intro c hc _ _; simp at hc
  | cons c0 rest ih =>
    intro c hc hf hcj
    rcases List.mem_cons.mp hc with rfl | hmem
    · obtain ⟨e0, he0⟩ := hcj
      exact ⟨e0, by simp only [discoverJobs, hf, if_true, he0]⟩
    · cases hf0 : passesFilter sel (c0.labels.getD []) with
      | false =>
        obtain ⟨err, herr⟩ := ih c hmem hf hcj
        exact ⟨err, by simp only [discoverJobs, hf0]; exact herr⟩
      | true =>
        cases hc0 : containerJobs O pfxs c0 with
        | error e =>
          exact ⟨e, by simp only [discoverJobs, hf0, if_true, hc0]⟩
        | ok js =>
          obtain ⟨err, herr⟩ := ih c hmem hf hcj
          exact ⟨err, by simp only [discoverJobs, hf0, if_true, hc0, herr]⟩

/-! ## Claim C3: a schedule parse failure aborts the whole pass -/

/-- C3. If any job group discovered on any container passing the filter
has both `schedule` and `command` present but an unparseable schedule
string, the entire discovery pass returns an error that names an
offending schedule string (the `parse schedule '...'` context of
src/job.rs:188-189), and consequently no jobs at all are returned — the
`Result` carries either all jobs or none, so jobs already materialized
on other containers are discarded with the failure. -/
theorem c3_parse_failure_aborts_discovery (O : ParseOracles D C)
    (sel : Option Label) (pfxs : List String) (cs : List ContainerSummary)
    (c : ContainerSummary) (pfx : String) (g : String × PartialJobConfig)
    (hc : c ∈ cs)
    (hf : passesFilter sel (c.labels.getD []) = true)
    (hp : findEnabledPfx pfxs (c.labels.getD []) = some pfx)
    (hg : g ∈ groupJobLabels pfx (c.labels.getD []))
    (hfail : isFailingGroup O g) :
    ∃ err, discoverJobs O sel pfxs cs = Except.error err ∧
      errNamesFailing O err := by
  have hcj : ∃ e0, containerJobs O pfxs c = Except.error e0 := by
    obtain ⟨err0, h0⟩ := processGroups_error_of_failing O (c.id.getD emptyStr)
      (containerDisplayName c) _ ⟨g, hg, hfail⟩
    exact ⟨err0, by simp only [containerJobs, hp]; exact h0⟩
  obtain ⟨err, herr⟩ := discoverJobs_error_of_container O sel pfxs cs c hc hf hcj
  exact ⟨err, herr, discoverJobs_error_names O sel pfxs cs err herr⟩

/-- Witness for C3, spec scenario 5: with a healthy container listed
first and a second container carrying schedule `"@every notaduration"`,
the whole pass errors (naming that schedule string) and returns no jobs,
not even the healthy container's. -/
theorem c3_witness :
    ∃ err, discoverJobs demoOracles none dcPfxs [cGood, cBad] = Except.error err ∧
      errNamesFailing demoOracles err := by
  exact c3_parse_failure_aborts_discovery demoOracles none dcPfxs [cGood, cBad]
    cBad dockcronPfx cBadGrp (by simp) (by decide) (by decide) (by decide)
    ⟨badSched, "echo hi", ScheduleParseError.durationError, rfl, rfl, by decide⟩

/-! ## Helper lemmas: prefix selection and label-namespace disjointness -/

theorem find?_eq_some_decomp {α : Type} (f : α → Bool) :
    ∀ (l : List α) (a : α), l.find? f = some a →
      f a = true ∧ ∃ l1 l2, l = l1 ++ a :: l2 ∧ ∀ x ∈ l1, f x = false := by
  intro l
  induction l with
  | nil => intro a h; simp at h
  | cons x l ih =>
    intro a h
    cases hfx : f x with
    | true =>
      rw [List.find?_cons_of_pos l hfx] at h
      have hxa : x = a := by injection h
      subst hxa
      exact ⟨hfx, [], l, rfl, by simp⟩
    | false =>
      rw [List.find?_cons_of_neg l (by simp [hfx])] at h
      obtain ⟨hfa, l1, l2, hdec, hall⟩ := ih a h
      refine ⟨hfa, x :: l1, l2, by rw [hdec, List.cons_append], ?_⟩
      intro r hr
      rcases List.mem_cons.mp hr with rfl | hr2
      · exact hfx
      · exact hall r hr2

theorem dotfree_cons_decomp_unique :
    ∀ (a1 a2 r1 r2 : List Char), (∀ c ∈ a1, c ≠ '.') → (∀ c ∈ a2, c ≠ '.') →
      a1 ++ '.' :: r1 = a2 ++ '.' :: r2 → a1 = a2 ∧ r1 = r2 := by
  intro a1
  induction a1 with
  | nil =>
    intro a2 r1 r2 h1 h2 heq
    cases a2 with
    | nil =>
      refine ⟨rfl, ?_⟩
      have h3 := List.cons.inj heq
      exact h3.2
    | cons c a2 =>
      exfalso
      have h3 := List.cons.inj heq
      exact h2 c (by simp) h3.1.symm
  | cons c a1 ih =>
    intro a2 r1 r2 h1 h2 heq
    cases a2 with
    | nil =>
      exfalso
      have h3 := List.cons.inj heq
      exact h1 c (by simp) h3.1
    | cons d a2 =>
      have h3 := List.cons.inj heq
      obtain ⟨ha, hr⟩ := ih a2 r1 r2
        (fun x hx => h1 x (by simp [hx])) (fun x hx => h2 x (by simp [hx])) h3.2
      refine ⟨?_, hr⟩
      rw [h3.1, ha]

theorem matchJobKey_some_decomp (q k : String) (nk : String × String)
    (h : matchJobKey q k = some nk) :
    ∃ tail : String, k.toList = q.toList ++
      '.' :: ('j' :: 'o' :: 'b' :: '-' :: 'e' :: 'x' :: 'e' :: 'c' :: '.' :: tail.toList) := by
  unfold matchJobKey at h
  cases hd : dropPfx (q ++ jobExecSepStr) k with
  | none => rw [hd] at h; exact absurd h (by simp)
  | some tail =>
    refine ⟨tail, ?_⟩
    have h2 := dropPfx_some _ _ _ hd
    rw [toList_append] at h2
    have h3 : jobExecSepStr.toList =
        ['.', 'j', 'o', 'b', '-', 'e', 'x', 'e', 'c', '.'] := rfl
    rw [h3] at h2
    rw [h2]
    simp

theorem matchJobKey_key_ne_enabled (r q k : String) (nk : String × String)
    (hr : dotFree r) (hq : dotFree q)
    (h : matchJobKey q k = some nk) : k ≠ r ++ ".enabled" := by
  intro hk
  obtain ⟨tail, hdec⟩ := matchJobKey_some_decomp q k nk h
  have hk2 : k.toList = r.toList ++ '.' :: ('e' :: 'n' :: 'a' :: 'b' :: 'l' :: 'e' :: 'd' :: []) := by
    rw [hk, toList_append]
    rfl
  rw [hk2] at hdec
  obtain ⟨_, htl⟩ := dotfree_cons_decomp_unique r.toList q.toList _ _ hr hq hdec
  injection htl with hje _
  exact absurd hje (by decide)

theorem matchJobKey_disjoint (p q k : String) (nk : String × String)
    (hp : dotFree p) (hq : dotFree q) (hne : p ≠ q)
    (h : matchJobKey q k = some nk) : matchJobKey p k = none := by
  cases h2 : matchJobKey p k with
  | none => rfl
  | some nk2 =>
    exfalso
    obtain ⟨t1, hd1⟩ := matchJobKey_some_decomp q k nk h
    obtain ⟨t2, hd2⟩ := matchJobKey_some_decomp p k nk2 h2
    rw [hd1] at hd2
    obtain ⟨hqp, _⟩ := dotfree_cons_decomp_unique q.toList p.toList _ _ hq hp hd2
    exact hne (String.ext hqp.symm)

theorem lookupLbl_append_extras (labels extras : List (String × String)) (k : String)
    (h : ∀ kv ∈ extras, kv.1 ≠ k) :
    lookupLbl (labels ++ extras) k = lookupLbl labels k := by
  unfold lookupLbl
  rw [List.find?_append]
  have h2 : extras.find? (fun kv => kv.1 == k) = none := by
    rw [List.find?_eq_none]
    intro kv hkv
    simp [h kv hkv]
  rw [h2]
  cases labels.find? (fun kv => kv.1 == k) <;> rfl

theorem enabledOn_append_extras (labels extras : List (String × String))
    (r q : String) (hr : dotFree r) (hq : dotFree q)
    (hex : ∀ kv ∈ extras, (matchJobKey q kv.1).isSome = true) :
    enabledOn (labels ++ extras) r = enabledOn labels r := by
  unfold enabledOn
  rw [lookupLbl_append_extras]
  intro kv hkv
  have h1 := hex kv hkv
  cases hm : matchJobKey q kv.1 with
  | none => rw [hm] at h1; simp at h1
  | some nk => exact matchJobKey_key_ne_enabled r q kv.1 nk hr hq hm

theorem findEnabledPfx_append_extras (pfxs : List String)
    (labels extras : List (String × String)) (q : String)
    (hdot : ∀ r ∈ pfxs, dotFree r) (hq : dotFree q)
    (hex : ∀ kv ∈ extras, (matchJobKey q kv.1).isSome = true) :
    findEnabledPfx pfxs (labels ++ extras) = findEnabledPfx pfxs labels := by
  unfold findEnabledPfx
  induction pfxs with
  | nil => rfl
  | cons r rest ih =>
    have hr := enabledOn_append_extras labels extras r q (hdot r (by simp)) hq hex
    cases he : enabledOn labels r with
    | true =>
      rw [List.find?_cons_of_pos rest (by rw [hr, he]),
        List.find?_cons_of_pos rest he]
    | false =>
      rw [List.find?_cons_of_neg rest (by rw [hr, he]; simp),
        List.find?_cons_of_neg rest (by rw [he]; simp)]
      exact ih (fun r2 h2 => hdot r2 (by simp [h2]))

theorem foldl_groups_no_match (pfx : String) :
    ∀ (ex : List (String × String)) (gs : List (String × PartialJobConfig)),
      (∀ kv ∈ ex, matchJobKey pfx kv.1 = none) →
      ex.foldl
        (fun gs kv =>
          match matchJobKey pfx kv.1 with
          | some nk => groupUpd gs nk.1 nk.2 kv.2
          | none => gs) gs = gs := by
  intro ex
  induction ex with
  | nil => intro gs _; rfl
  | cons kv ex ih =>
    intro gs h
    rw [List.foldl_cons]
    have hkv := h kv (by simp)
    simp only [hkv]
    exact ih gs (fun kv2 h2 => h kv2 (by simp [h2]))

theorem groupJobLabels_append_extras (pfx q : String)
    (labels extras : List (String × String))
    (hp : dotFree pfx) (hq : dotFree q) (hne : q ≠ pfx)
    (hex : ∀ kv ∈ extras, (matchJobKey q kv.1).isSome = true) :
    groupJobLabels pfx (labels ++ extras) = groupJobLabels pfx labels := by
  unfold groupJobLabels
  rw [List.foldl_append]
  apply foldl_groups_no_match
  intro kv hkv
  have h1 := hex kv hkv
  cases hm : matchJobKey q kv.1 with
  | none => rw [hm] at h1; simp at h1
  | some nk =>
    exact matchJobKey_disjoint pfx q kv.1 nk hp hq (fun hc => hne hc.symm) hm

/-! ## Claim C7: first enabled prefix wins -/

/-- C7. Discovery's prefix scan (src/job.rs:115-131): a container none
of whose configured prefixes has `<p>.enabled = "true"` contributes zero
jobs; when the scan returns a prefix `p`, `p` is enabled and is the
first such entry of the configured list (all entries before it are not
enabled); and — for dot-free prefixes, whose job-label namespaces are
disjoint — appending job labels that live under a different (e.g., later
matching) prefix `q` leaves the container's discovered jobs unchanged:
labels under any prefix other than the selected first match are
ignored. -/
theorem c7_first_enabled_prefix_wins (O : ParseOracles D C) (pfxs : List String)
    (id0 : Option String) (nm : Option (List String))
    (labels extras : List (String × String)) (p q : String) :
    (findEnabledPfx pfxs labels = none →
      containerJobs O pfxs ⟨id0, nm, some labels⟩ = Except.ok []) ∧
    (findEnabledPfx pfxs labels = some p →
      enabledOn labels p = true ∧
      ∃ l1 l2, pfxs = l1 ++ p :: l2 ∧ ∀ r ∈ l1, enabledOn labels r = false) ∧
    (findEnabledPfx pfxs labels = some p → q ≠ p →
      (∀ r ∈ pfxs, dotFree r) → dotFree q →
      (∀ kv ∈ extras, (matchJobKey q kv.1).isSome = true) →
      containerJobs O pfxs ⟨id0, nm, some (labels ++ extras)⟩ =
        containerJobs O pfxs ⟨id0, nm, some labels⟩) := by
  refine ⟨?_, ?_, ?_⟩
  · intro h
    simp only [containerJobs, Option.getD_some, h]
  · intro h
    obtain ⟨hen, l1, l2, hdec, hall⟩ := find?_eq_some_decomp (enabledOn labels) pfxs p h
    exact ⟨hen, l1, l2, hdec, hall⟩
  · intro h hqp hdot hq hex
    have hp_mem : p ∈ pfxs := List.mem_of_find?_eq_some h
    have hfind : findEnabledPfx pfxs (labels ++ extras) = some p := by
      rw [findEnabledPfx_append_extras pfxs labels extras q hdot hq hex, h]
    have hgrp : groupJobLabels p (labels ++ extras) = groupJobLabels p labels :=
      groupJobLabels_append_extras p q labels extras (hdot p hp_mem) hq hqp hex
    simp only [containerJobs, Option.getD_some, hfind, h, hgrp]
    rfl

/-- Witness for C7: a container with `dockcron.enabled = "false"` and no
other enabled prefix yields zero jobs; and on a container enabled under
both `dockcron` and `ofelia`, appending `ofelia` job labels leaves the
discovered jobs exactly those of the `dockcron` labels. -/
theorem c7_witness :
    containerJobs demoOracles dcOfPfxs cNoEnable = Except.ok [] ∧
      containerJobs demoOracles dcOfPfxs
          ⟨some "hhhh", some ["/two"], some (twoPfxLabels ++ ofeliaExtras)⟩ =
        containerJobs demoOracles dcOfPfxs cTwoPfx := by
  constructor
  · exact (c7_first_enabled_prefix_wins demoOracles dcOfPfxs (some "gggg")
      (some ["/idle"]) noEnableLabels [] dockcronPfx ofeliaPfx).1 (by decide)
  · exact (c7_first_enabled_prefix_wins demoOracles dcOfPfxs (some "hhhh")
      (some ["/two"]) twoPfxLabels ofeliaExtras dockcronPfx ofeliaPfx).2.2
      (by decide) (by decide) (by decide) (by decide) (by decide)

end Dockcron
